import Mathlib

/-!
# Verification of the trendfit bootstrap core and change-point model

Shallow embedding of `src/trendfit/bootstrap/_bootstrap.py` and
`src/trendfit/models/_models.py`.  Machine floats are modelled as real
numbers; numpy arrays as Lean lists (or `Fin n → ℝ` where index
arithmetic matters); the external least-squares / optimizer / Cholesky
routines (excluded collaborators) are abstracted as function parameters.
-/

namespace Trendfit

/-! ## Block partitioning (`np.array_split`, used in `BlockARWild._generate_bootstrap_err`)

`np.array_split(arr, k)` splits `arr` of length `n` into `k` contiguous
pieces: the first `n % k` pieces have `n / k + 1` elements, the rest
have `n / k` elements. -/

/-- Piece sizes produced by `np.array_split` on a length-`n` array split
into `k` sections. -/
def splitSizes (n k : ℕ) : List ℕ :=
  (List.range k).map (fun i => if i < n % k then n / k + 1 else n / k)

/-- Cut a list into consecutive pieces of the given sizes. -/
def splitBySizes {α : Type*} : List ℕ → List α → List (List α)
  | [], _ => []
  | s :: rest, l => l.take s :: splitBySizes rest (l.drop s)

/-- Embedding of `np.array_split(l, k)`. -/
def arraySplit {α : Type*} (l : List α) (k : ℕ) : List (List α) :=
  splitBySizes (splitSizes l.length k) l

/-- Number of blocks chosen by `BlockARWild._generate_bootstrap_err`:
`n_blocks = max(t.size // self.block_size, 1)`. -/
def nBlocks (n blockSize : ℕ) : ℕ := max (n / blockSize) 1

/-- Ceiling division on naturals, `⌈n / k⌉`. -/
def ceilDiv (n k : ℕ) : ℕ := (n + k - 1) / k

theorem sum_map_range_ite (q r k : ℕ) (hrk : r ≤ k) :
    ((List.range k).map (fun i => if i < r then q + 1 else q)).sum = k * q + r := by
  induction k with
  | zero =>
    interval_cases r
    simp
  | succ k ih =>
    rcases Nat.lt_or_ge k r with hk | hk
    · have hr : r = k + 1 := le_antisymm hrk hk
      subst hr
      have hmap : (List.range (k + 1)).map (fun i => if i < k + 1 then q + 1 else q)
          = (List.range (k + 1)).map (fun _ => q + 1) := by
        apply List.map_congr_left
        intro i hi
        simp only [List.mem_range] at hi
        simp [hi]
      rw [hmap, List.map_const', List.sum_replicate, List.length_range, smul_eq_mul]
      ring
    · have hsum := ih hk
      rw [List.range_succ, List.map_append, List.sum_append]
      simp only [List.map_cons, List.map_nil, List.sum_cons, List.sum_nil]
      have hnot : ¬ k < r := Nat.not_lt.mpr hk
      rw [if_neg hnot, hsum]
      ring

theorem sum_splitSizes (n k : ℕ) (hk : 1 ≤ k) : (splitSizes n k).sum = n := by
  have hrk : n % k ≤ k := le_of_lt (Nat.mod_lt _ hk)
  rw [splitSizes, sum_map_range_ite _ _ _ hrk]
  have := Nat.div_add_mod n k
  omega

theorem length_splitBySizes {α : Type*} (sizes : List ℕ) (l : List α) :
    (splitBySizes sizes l).length = sizes.length := by
  induction sizes generalizing l with
  | nil => simp [splitBySizes]
  | cons s rest ih => simp [splitBySizes, ih]

theorem flatten_splitBySizes {α : Type*} (sizes : List ℕ) (l : List α)
    (h : sizes.sum = l.length) : (splitBySizes sizes l).flatten = l := by
  induction sizes generalizing l with
  | nil =>
    simp only [List.sum_nil] at h
    simp [splitBySizes, (List.length_eq_zero.mp h.symm)]
  | cons s rest ih =>
    simp only [List.sum_cons] at h
    have hs : s ≤ l.length := by omega
    have hrest : rest.sum = (l.drop s).length := by
      rw [List.length_drop]; omega
    simp [splitBySizes, ih _ hrest]

theorem map_length_splitBySizes {α : Type*} (sizes : List ℕ) (l : List α)
    (h : sizes.sum ≤ l.length) : (splitBySizes sizes l).map List.length = sizes := by
  induction sizes generalizing l with
  | nil => simp [splitBySizes]
  | cons s rest ih =>
    simp only [List.sum_cons] at h
    have hs : s ≤ l.length := by omega
    have hrest : rest.sum ≤ (l.drop s).length := by
      rw [List.length_drop]; omega
    simp [splitBySizes, ih _ hrest, List.length_take, min_eq_left hs]

theorem splitSizes_get (n k i : ℕ) (hi : i < k) :
    (splitSizes n k).getD i 0 = if i < n % k then n / k + 1 else n / k := by
  rw [splitSizes, List.getD_eq_getElem _ _ (by simpa using hi)]
  simp

theorem ceilDiv_eq_div_add_one (n k : ℕ) (hk : 0 < k) (h : n % k ≠ 0) :
    ceilDiv n k = n / k + 1 := by
  rw [ceilDiv]
  have hr1 : 1 ≤ n % k := Nat.one_le_iff_ne_zero.mpr h
  have hrk : n % k < k := Nat.mod_lt _ hk
  have hmod : k * (n / k) + n % k = n := Nat.div_add_mod n k
  have heq : n + k - 1 = k * (n / k) + (n % k + k - 1) := by omega
  rw [heq, Nat.mul_add_div hk]
  have hone : (n % k + k - 1) / k = 1 := by
    apply Nat.div_eq_of_lt_le <;> omega
  omega

/-- C2: with `k = max(n / b, 1)` blocks, `np.array_split` yields exactly `k`
contiguous blocks covering every index once; the first `n % k` blocks have
`⌈n / k⌉` elements, the rest `⌊n / k⌋`; sizes differ by at most 1; and
`b ≥ n` yields a single block. -/
theorem blockARWild_partition {α : Type*} (l : List α) (n b : ℕ)
    (hn : l.length = n) (hn1 : 1 ≤ n) (hb : 1 ≤ b) :
    (arraySplit l (nBlocks n b)).flatten = l ∧
    (arraySplit l (nBlocks n b)).length = nBlocks n b ∧
    ((arraySplit l (nBlocks n b)).map List.length =
      (List.range (nBlocks n b)).map
        (fun i => if i < n % nBlocks n b then ceilDiv n (nBlocks n b)
                  else n / nBlocks n b)) ∧
    (∀ s₁ ∈ (arraySplit l (nBlocks n b)).map List.length,
     ∀ s₂ ∈ (arraySplit l (nBlocks n b)).map List.length, s₁ ≤ s₂ + 1) ∧
    (n ≤ b → nBlocks n b = 1) := by
  subst hn
  set k := nBlocks l.length b with hk
  have hk1 : 1 ≤ k := le_max_right _ _
  have hsum : (splitSizes l.length k).sum = l.length := sum_splitSizes _ _ hk1
  refine ⟨?_, ?_, ?_, ?_, ?_⟩
  · exact flatten_splitBySizes _ _ hsum
  · rw [arraySplit, length_splitBySizes, splitSizes, List.length_map, List.length_range]
  · rw [arraySplit, map_length_splitBySizes _ _ (le_of_eq hsum), splitSizes]
    apply List.map_congr_left
    intro i hi
    simp only [List.mem_range] at hi
    rcases Nat.eq_zero_or_pos (l.length % k) with hz | hz
    · simp [hz]
    · by_cases hir : i < l.length % k
      · rw [if_pos hir, if_pos hir,
          ceilDiv_eq_div_add_one _ _ (by omega) (by omega)]
      · rw [if_neg hir, if_neg hir]
  · intro s₁ h₁ s₂ h₂
    rw [arraySplit, map_length_splitBySizes _ _ (le_of_eq hsum), splitSizes] at h₁ h₂
    simp only [List.mem_map, List.mem_range] at h₁ h₂
    obtain ⟨i₁, -, hv₁⟩ := h₁
    obtain ⟨i₂, -, hv₂⟩ := h₂
    by_cases hc₁ : i₁ < l.length % k <;> by_cases hc₂ : i₂ < l.length % k <;>
      simp [hc₁, hc₂] at hv₁ hv₂ <;> omega
  · intro hnb
    rw [hk, nBlocks]
    rcases Nat.lt_or_ge l.length b with hlt | hge
    · rw [Nat.div_eq_of_lt hlt]
      simp
    · have hleb : l.length = b := le_antisymm hnb hge
      rw [hleb, Nat.div_self (by omega)]
      simp

/-- C2 witness: concrete instance `n = 5`, `b = 2`. -/
theorem blockARWild_partition_witness :
    ([0, 1, 2, 3, 4] : List ℕ).length = 5 ∧ 1 ≤ 5 ∧ 1 ≤ 2 ∧
    ((arraySplit [0, 1, 2, 3, 4] (nBlocks 5 2)).flatten = [0, 1, 2, 3, 4] ∧
     (arraySplit [0, 1, 2, 3, 4] (nBlocks 5 2)).length = nBlocks 5 2 ∧
     ((arraySplit ([0, 1, 2, 3, 4] : List ℕ) (nBlocks 5 2)).map List.length =
       (List.range (nBlocks 5 2)).map
         (fun i => if i < 5 % nBlocks 5 2 then ceilDiv 5 (nBlocks 5 2)
                   else 5 / nBlocks 5 2)) ∧
     (∀ s₁ ∈ (arraySplit ([0, 1, 2, 3, 4] : List ℕ) (nBlocks 5 2)).map List.length,
      ∀ s₂ ∈ (arraySplit ([0, 1, 2, 3, 4] : List ℕ) (nBlocks 5 2)).map List.length,
        s₁ ≤ s₂ + 1) ∧
     (5 ≤ 2 → nBlocks 5 2 = 1)) :=
  ⟨by decide, by decide, by decide,
    blockARWild_partition [0, 1, 2, 3, 4] 5 2 (by decide) (by decide) (by decide)⟩

/-! ## Residual resampling (`ResidualResampling._generate_bootstrap_sample`)

`random_state.shuffle(errors)` is numpy's in-place Fisher–Yates shuffle:
for `i` from `n - 1` down to `1`, draw `j` uniformly in `[0, i]` and swap
entries `i` and `j`.  The random source is modelled as an arbitrary
stream `rs : ℕ → ℕ` of draws, reduced into range by `% (i + 1)`. -/

/-- Swap the entries at positions `i` and `j` of an array. -/
def swapEntries {α : Type*} {n : ℕ} (a : Fin n → α) (i j : Fin n) : Fin n → α :=
  a ∘ Equiv.swap i j

theorem swapEntries_left {α : Type*} {n : ℕ} (a : Fin n → α) (i j : Fin n) :
    swapEntries a i j i = a j := by
  simp [swapEntries]

theorem swapEntries_right {α : Type*} {n : ℕ} (a : Fin n → α) (i j : Fin n) :
    swapEntries a i j j = a i := by
  simp [swapEntries]

theorem swapEntries_other {α : Type*} {n : ℕ} (a : Fin n → α) {i j k : Fin n}
    (h₁ : k ≠ i) (h₂ : k ≠ j) : swapEntries a i j k = a k := by
  simp [swapEntries, Equiv.swap_apply_of_ne_of_ne h₁ h₂]

/-- Fisher–Yates loop: steps at indices `i, i - 1, ..., 1`. -/
def shuffleAux {α : Type*} {n : ℕ} (rs : ℕ → ℕ) : ℕ → (Fin n → α) → (Fin n → α)
  | 0, a => a
  | i + 1, a =>
    if h : i + 1 < n then
      shuffleAux rs i
        (swapEntries a ⟨i + 1, h⟩
          ⟨rs (i + 1) % (i + 2), (Nat.mod_lt _ (by omega)).trans_le (by omega)⟩)
    else shuffleAux rs i a

/-- Embedding of `numpy.random.RandomState.shuffle` on a length-`n` array. -/
def npShuffle {α : Type*} {n : ℕ} (rs : ℕ → ℕ) (a : Fin n → α) : Fin n → α :=
  shuffleAux rs (n - 1) a

theorem shuffleAux_eq_comp_perm {α : Type*} {n : ℕ} (rs : ℕ → ℕ) (i : ℕ)
    (a : Fin n → α) : ∃ σ : Equiv.Perm (Fin n), shuffleAux rs i a = a ∘ σ := by
  induction i generalizing a with
  | zero => exact ⟨Equiv.refl _, rfl⟩
  | succ i ih =>
    by_cases h : i + 1 < n
    · rw [shuffleAux, dif_pos h]
      obtain ⟨σ, hσ⟩ := ih (swapEntries a ⟨i + 1, h⟩
        ⟨rs (i + 1) % (i + 2), (Nat.mod_lt _ (by omega)).trans_le (by omega)⟩)
      refine ⟨σ.trans (Equiv.swap ⟨i + 1, h⟩
        ⟨rs (i + 1) % (i + 2), (Nat.mod_lt _ (by omega)).trans_le (by omega)⟩), ?_⟩
      rw [hσ]
      funext x
      simp [swapEntries, Equiv.trans_apply, Function.comp]
    · rw [shuffleAux, dif_neg h]
      exact ih a

theorem npShuffle_eq_comp_perm {α : Type*} {n : ℕ} (rs : ℕ → ℕ) (a : Fin n → α) :
    ∃ σ : Equiv.Perm (Fin n), npShuffle rs a = a ∘ σ :=
  shuffleAux_eq_comp_perm rs (n - 1) a

theorem npShuffle_perm {α : Type*} {n : ℕ} (rs : ℕ → ℕ) (a : Fin n → α) :
    (List.ofFn (npShuffle rs a)).Perm (List.ofFn a) := by
  obtain ⟨σ, hσ⟩ := npShuffle_eq_comp_perm rs a
  rw [hσ]
  exact Equiv.Perm.ofFn_comp_perm σ a

/-- Embedding of `ResidualResampling._generate_bootstrap_sample`: copy the
fitted residuals, shuffle them in place, add them to the predicted values. -/
def generateSampleRR {n : ℕ} (rs : ℕ → ℕ) (yPredict residuals : Fin n → ℝ) :
    Fin n → ℝ :=
  let errors := npShuffle rs residuals
  fun i => yPredict i + errors i

/-- C3: the residual-resampling sample is the predicted values plus a
permutation of the residual vector, and the multiset of added error values
is exactly the multiset of residuals. -/
theorem residualResampling_perm {n : ℕ} (rs : ℕ → ℕ)
    (yPredict residuals : Fin n → ℝ) :
    (∃ σ : Equiv.Perm (Fin n),
      ∀ i, generateSampleRR rs yPredict residuals i = yPredict i + residuals (σ i)) ∧
    (List.ofFn (fun i => generateSampleRR rs yPredict residuals i - yPredict i)).Perm
      (List.ofFn residuals) := by
  constructor
  · obtain ⟨σ, hσ⟩ := npShuffle_eq_comp_perm rs residuals
    exact ⟨σ, fun i => by simp [generateSampleRR, hσ, Function.comp]⟩
  · have hfn : (fun i => generateSampleRR rs yPredict residuals i - yPredict i)
        = npShuffle rs residuals := by
      funext i
      simp [generateSampleRR]
    rw [hfn]
    exact npShuffle_perm rs residuals

/-! ## Empirical quantiles (`BootstrapEstimator.get_ci_bounds`)

`np.quantile(v, q)` with the default linear interpolation: on the sorted
values `s` of length `n`, the virtual position is `h = q * (n - 1)`; the
result interpolates between `s[⌊h⌋]` and `s[⌊h⌋ + 1]` (the upper index
clipped to `n - 1`). -/

/-- Embedding of `np.quantile(l, q)` (default linear-interpolation method). -/
noncomputable def npQuantile (l : List ℝ) (q : ℝ) : ℝ :=
  let s := l.mergeSort
  let m := l.length - 1
  let h := q * m
  let i := Nat.floor h
  let j := min (i + 1) m
  s.getD i 0 + (h - i) * (s.getD j 0 - s.getD i 0)

theorem sorted_getD_mono {s : List ℝ} (hs : s.Sorted (· ≤ ·)) {a b : ℕ}
    (hab : a ≤ b) (hb : b < s.length) : s.getD a 0 ≤ s.getD b 0 := by
  rw [List.getD_eq_getElem s 0 (lt_of_le_of_lt hab hb), List.getD_eq_getElem s 0 hb]
  rcases eq_or_lt_of_le hab with rfl | hlt
  · exact le_refl _
  · exact List.Sorted.rel_get_of_lt hs (by exact hlt)

theorem npQuantile_mono (l : List ℝ) (hl : l ≠ []) {q q' : ℝ}
    (h0 : 0 ≤ q) (hqq : q ≤ q') (h1 : q' ≤ 1) :
    npQuantile l q ≤ npQuantile l q' := by
  have hn : 1 ≤ l.length := List.length_pos.mpr hl
  simp only [npQuantile]
  set s := l.mergeSort with hsdef
  have hs : s.Sorted (· ≤ ·) := List.sorted_mergeSort' l
  have hslen : s.length = l.length := (List.mergeSort_perm l _).length_eq
  set m := l.length - 1 with hm
  have hmlt : m < s.length := by omega
  have hq'0 : 0 ≤ q' := le_trans h0 hqq
  have hmr0 : (0 : ℝ) ≤ (m : ℝ) := Nat.cast_nonneg m
  have hh0 : 0 ≤ q * m := mul_nonneg h0 hmr0
  have hh'0 : 0 ≤ q' * m := mul_nonneg hq'0 hmr0
  have hhh : q * m ≤ q' * m := mul_le_mul_of_nonneg_right hqq hmr0
  have hh'm : q' * (m : ℝ) ≤ (m : ℝ) := by nlinarith
  set i := Nat.floor (q * (m : ℝ)) with hi
  set i' := Nat.floor (q' * (m : ℝ)) with hi'
  have hii' : i ≤ i' := Nat.floor_mono hhh
  have hi'm : i' ≤ m := by
    have hfl : Nat.floor (q' * (m : ℝ)) ≤ Nat.floor ((m : ℝ)) := Nat.floor_mono hh'm
    simpa [Nat.floor_natCast] using hfl
  have him : i ≤ m := le_trans hii' hi'm
  have hfrac0 : 0 ≤ q * (m : ℝ) - i := sub_nonneg.mpr (Nat.floor_le hh0)
  have hfrac1 : q * (m : ℝ) - i ≤ 1 := by
    have := Nat.lt_floor_add_one (q * (m : ℝ))
    rw [← hi] at this
    linarith
  have hfrac'0 : 0 ≤ q' * (m : ℝ) - i' := sub_nonneg.mpr (Nat.floor_le hh'0)
  have hij : i ≤ min (i + 1) m := le_min (Nat.le_succ i) him
  have hi'j' : i' ≤ min (i' + 1) m := le_min (Nat.le_succ i') hi'm
  have hjm : min (i + 1) m < s.length := lt_of_le_of_lt (min_le_right _ _) hmlt
  have hj'm : min (i' + 1) m < s.length := lt_of_le_of_lt (min_le_right _ _) hmlt
  have hd : s.getD i 0 ≤ s.getD (min (i + 1) m) 0 := sorted_getD_mono hs hij hjm
  have hd' : s.getD i' 0 ≤ s.getD (min (i' + 1) m) 0 := sorted_getD_mono hs hi'j' hj'm
  rcases eq_or_lt_of_le hii' with heq | hlt
  · rw [← heq]
    have hmul := mul_le_mul_of_nonneg_right (sub_le_sub_right hhh (i : ℝ))
      (sub_nonneg.mpr hd)
    linarith
  · -- npQuantile q ≤ s[min (i+1) m] ≤ s[i'] ≤ npQuantile q'
    have hub : s.getD i 0 + (q * (m : ℝ) - i) * (s.getD (min (i + 1) m) 0 - s.getD i 0)
        ≤ s.getD (min (i + 1) m) 0 := by
      have := mul_le_of_le_one_left (sub_nonneg.mpr hd) hfrac1
      linarith
    have hmid : s.getD (min (i + 1) m) 0 ≤ s.getD i' 0 :=
      sorted_getD_mono hs (le_trans (min_le_left _ _) hlt) (lt_of_le_of_lt hi'm hmlt)
    have hlb : s.getD i' 0
        ≤ s.getD i' 0 + (q' * (m : ℝ) - i') * (s.getD (min (i' + 1) m) 0 - s.getD i' 0) := by
      have := mul_nonneg hfrac'0 (sub_nonneg.mpr hd')
      linarith
    linarith

/-- Embedding of `BootstrapEstimator.get_ci_bounds` for one scalar parameter
distribution (or one element of a vector-valued parameter's distribution,
`np.quantile`'s `axis=0` acting element-wise): `alpha = 1 - confidence_level`,
lower is the `alpha / 2` quantile, upper the `1 - alpha / 2` quantile. -/
noncomputable def getCIBounds1 (dist : List ℝ) (confidenceLevel : ℝ) : ℝ × ℝ :=
  (npQuantile dist ((1 - confidenceLevel) / 2),
   npQuantile dist (1 - (1 - confidenceLevel) / 2))

/-- C5: for a non-empty distribution and confidence levels in `[0, 1]`,
`get_ci_bounds` returns `lower ≤ upper`, and raising the confidence level
widens the interval monotonically (lower non-increasing, upper
non-decreasing). -/
theorem getCIBounds_ordered_monotone (dist : List ℝ) (hd : dist ≠ [])
    {c c' : ℝ} (h0 : 0 ≤ c) (hcc : c ≤ c') (h1 : c' ≤ 1) :
    (getCIBounds1 dist c').1 ≤ (getCIBounds1 dist c).1 ∧
    (getCIBounds1 dist c).1 ≤ (getCIBounds1 dist c).2 ∧
    (getCIBounds1 dist c).2 ≤ (getCIBounds1 dist c').2 := by
  have hc1 : c ≤ 1 := le_trans hcc h1
  have hc'0 : 0 ≤ c' := le_trans h0 hcc
  refine ⟨?_, ?_, ?_⟩
  · exact npQuantile_mono dist hd (by linarith) (by linarith) (by linarith)
  · exact npQuantile_mono dist hd (by linarith) (by linarith) (by linarith)
  · exact npQuantile_mono dist hd (by linarith) (by linarith) (by linarith)

/-- C5 witness: distribution `[1, 2, 3]`, confidence levels `0.5 ≤ 0.95`. -/
theorem getCIBounds_ordered_monotone_witness :
    ([1, 2, 3] : List ℝ) ≠ [] ∧ (0 : ℝ) ≤ 0.5 ∧ (0.5 : ℝ) ≤ 0.95 ∧ (0.95 : ℝ) ≤ 1 ∧
    ((getCIBounds1 [1, 2, 3] 0.95).1 ≤ (getCIBounds1 [1, 2, 3] 0.5).1 ∧
     (getCIBounds1 [1, 2, 3] 0.5).1 ≤ (getCIBounds1 [1, 2, 3] 0.5).2 ∧
     (getCIBounds1 [1, 2, 3] 0.5).2 ≤ (getCIBounds1 [1, 2, 3] 0.95).2) :=
  ⟨by simp, by norm_num, by norm_num, by norm_num,
   getCIBounds_ordered_monotone [1, 2, 3] (by simp) (by norm_num) (by norm_num)
     (by norm_num)⟩

/-! ## Bootstrap engine state (`BootstrapEstimator`)

`BaseEstimator` (the superclass supplying the public `fit` wrapper and the
`_fitted` flag) is not among the analysed sources; it is modelled from the
spec: a `fit` call runs the subclass `_fit` and then marks the estimator
fitted ("never partially fitted (fit either fully succeeds or raises)";
"FittedModel ... owns ... a `fitted` flag").  The wrapped trend model's own
fitting computation is an abstract parameter, per the model contract the
spec lists as an external interface. -/

/-- A wrapped model through the model contract used by the bootstrap core:
fitted flag, time grid, predicted values, residuals, and a parameter
mapping (`P` names parameters, `V` their values). -/
structure Model (P V : Type) where
  fitted : Bool
  t : List ℝ
  yPredict : List ℝ
  residuals : List ℝ
  parameters : P → V

/-- `BootstrapEstimator` state: wrapped model, configuration, the
accumulated parameter distributions (`defaultdict(list)`), retained fitted
copies, and the engine's own fitted flag. -/
structure Engine (P V : Type) where
  model : Model P V
  nSamples : ℕ
  saveModels : Bool
  paramDists : P → List V
  models : List (Model P V)
  fitted : Bool

/-- Embedding of `BootstrapEstimator.generate_bootstrap_sample`: raise
`ValueError("Model not fitted.")` when the wrapped model is unfitted,
otherwise delegate to the subclass generator `gen` with the random source.
The engine state is returned alongside the outcome, recording that the
call leaves it unchanged. -/
def generateBootstrapSample {P V R : Type} (gen : Model P V → R → List ℝ)
    (e : Engine P V) (randomState : R) : Except String (List ℝ) × Engine P V :=
  if e.model.fitted then (.ok (gen e.model randomState), e)
  else (.error "Model not fitted.", e)

/-- Embedding of `BootstrapEstimator.get_ci_bounds`: raise when the engine
itself is not fitted, otherwise return the per-parameter empirical quantile
bounds; the engine state is returned alongside, unchanged. -/
noncomputable def getCIBoundsE {P : Type} (e : Engine P ℝ) (confidenceLevel : ℝ) :
    Except String (P → ℝ × ℝ) × Engine P ℝ :=
  if e.fitted then
    (.ok (fun k => getCIBounds1 (e.paramDists k) confidenceLevel), e)
  else (.error "run `.fit()` first", e)

/-- C6: generating a bootstrap sample with an unfitted wrapped model fails
with an error and leaves the engine state unchanged, and requesting CI
bounds from an unfitted engine fails with an error and leaves the engine
state unchanged. -/
theorem unfitted_calls_raise {P V R : Type} (gen : Model P V → R → List ℝ)
    (e : Engine P V) (randomState : R) (e2 : Engine P ℝ) (cl : ℝ) :
    (e.model.fitted = false →
      generateBootstrapSample gen e randomState = (.error "Model not fitted.", e)) ∧
    (e2.fitted = false →
      getCIBoundsE e2 cl = (.error "run `.fit()` first", e2)) := by
  constructor
  · intro h
    simp [generateBootstrapSample, h]
  · intro h
    simp [getCIBoundsE, h]

/-- A freshly constructed, unfitted engine over a trivial parameter space. -/
def unfittedEngine : Engine Unit ℝ where
  model := { fitted := false, t := [], yPredict := [], residuals := []
             parameters := fun _ => 0 }
  nSamples := 1000
  saveModels := false
  paramDists := fun _ => []
  models := []
  fitted := false

/-- C6 witness: both unfitted-call errors on a concrete unfitted engine. -/
theorem unfitted_calls_raise_witness :
    unfittedEngine.model.fitted = false ∧ unfittedEngine.fitted = false ∧
    (generateBootstrapSample (fun _ _ => []) unfittedEngine (0 : ℕ)
        = (.error "Model not fitted.", unfittedEngine) ∧
     getCIBoundsE unfittedEngine 0.95 = (.error "run `.fit()` first", unfittedEngine)) :=
  ⟨rfl, rfl,
   (unfitted_calls_raise (fun _ _ => []) unfittedEngine (0 : ℕ)
      unfittedEngine 0.95).1 rfl,
   (unfitted_calls_raise (fun _ _ => []) unfittedEngine (0 : ℕ)
      unfittedEngine 0.95).2 rfl⟩

/-! ## The bootstrap fitting loop (`BootstrapEstimator._fit`) -/

/-- Modelled from the spec: `BaseEstimator.fit` (not under `src/`) runs the
fitting computation and sets the fitted flag.  `fitModel` abstracts the
wrapped model's own `_fit` (external model contract `fit(t, y)`). -/
def fitWrapper {P V : Type} (fitModel : Model P V → List ℝ → List ℝ → Model P V)
    (m : Model P V) (t y : List ℝ) : Model P V :=
  { fitModel m t y with fitted := true }

/-- One bootstrap draw (`fit_sample` inside `BootstrapEstimator._fit`):
deep-copy the fitted base model, generate a synthetic sample (`gen`
abstracts the subclass `_generate_bootstrap_sample` fed by the draw's
random source, indexed by draw number), refit the copy, and return the
optionally retained copy with a copy of its parameters. -/
def fitSample {P V : Type} (fitModel : Model P V → List ℝ → List ℝ → Model P V)
    (gen : Model P V → ℕ → List ℝ) (saveModels : Bool) (model : Model P V)
    (t : List ℝ) (i : ℕ) : Option (Model P V) × (P → V) :=
  let mb := model
  let yb := gen model i
  let mbf := fitWrapper fitModel mb t yb
  (if saveModels then some mbf else none, mbf.parameters)

/-- Recording step of the loop at the end of `BootstrapEstimator._fit`:
append the retained model when `save_models` is set, and append every
parameter value of the draw to the accumulated distributions. -/
def recordDraw {P V : Type} (e : Engine P V)
    (r : Option (Model P V) × (P → V)) : Engine P V :=
  { e with
    models := if e.saveModels then e.models ++ r.1.toList else e.models
    paramDists := fun k => e.paramDists k ++ [r.2 k] }

/-- Embedding of `BootstrapEstimator.fit` (the `BaseEstimator.fit` wrapper
around `BootstrapEstimator._fit`): fit the base model once, run `n_samples`
draws against that fitted model, record each draw's parameters in draw
order, then mark the engine fitted. -/
def engineFit {P V : Type} (fitModel : Model P V → List ℝ → List ℝ → Model P V)
    (gen : Model P V → ℕ → List ℝ) (e : Engine P V) (t y : List ℝ) : Engine P V :=
  let m := fitWrapper fitModel e.model t y
  let res := (List.range e.nSamples).map (fitSample fitModel gen e.saveModels m t)
  let e1 := res.foldl recordDraw { e with model := m }
  { e1 with fitted := true }

theorem foldl_recordDraw_model {P V : Type}
    (res : List (Option (Model P V) × (P → V))) (acc : Engine P V) :
    (res.foldl recordDraw acc).model = acc.model := by
  induction res generalizing acc with
  | nil => rfl
  | cons r rest ih => simp [List.foldl_cons, ih, recordDraw]

theorem foldl_recordDraw_nSamples {P V : Type}
    (res : List (Option (Model P V) × (P → V))) (acc : Engine P V) :
    (res.foldl recordDraw acc).nSamples = acc.nSamples := by
  induction res generalizing acc with
  | nil => rfl
  | cons r rest ih => simp [List.foldl_cons, ih, recordDraw]

theorem foldl_recordDraw_saveModels {P V : Type}
    (res : List (Option (Model P V) × (P → V))) (acc : Engine P V) :
    (res.foldl recordDraw acc).saveModels = acc.saveModels := by
  induction res generalizing acc with
  | nil => rfl
  | cons r rest ih => simp [List.foldl_cons, ih, recordDraw]

theorem foldl_recordDraw_paramDists {P V : Type}
    (res : List (Option (Model P V) × (P → V))) (acc : Engine P V) (k : P) :
    (res.foldl recordDraw acc).paramDists k
      = acc.paramDists k ++ res.map (fun r => r.2 k) := by
  induction res generalizing acc with
  | nil => simp
  | cons r rest ih =>
    simp [List.foldl_cons, ih, recordDraw, List.append_assoc]

/-- C9: `fit` fits the wrapped base model exactly once, before the draws;
afterwards the engine's base model — its parameters, residuals and
predicted values included — is exactly the result of that single initial
fit, untouched by the `n_samples` copy-refitting draws. -/
theorem engineFit_base_model_once {P V : Type}
    (fitModel : Model P V → List ℝ → List ℝ → Model P V)
    (gen : Model P V → ℕ → List ℝ) (e : Engine P V) (t y : List ℝ) :
    (engineFit fitModel gen e t y).model = fitWrapper fitModel e.model t y ∧
    (engineFit fitModel gen e t y).model.parameters
      = (fitWrapper fitModel e.model t y).parameters ∧
    (engineFit fitModel gen e t y).model.residuals
      = (fitWrapper fitModel e.model t y).residuals ∧
    (engineFit fitModel gen e t y).model.yPredict
      = (fitWrapper fitModel e.model t y).yPredict := by
  have hmodel : (engineFit fitModel gen e t y).model
      = fitWrapper fitModel e.model t y := by
    simp [engineFit, foldl_recordDraw_model]
  exact ⟨hmodel, by rw [hmodel], by rw [hmodel], by rw [hmodel]⟩

/-- C10: a completed `fit` appends exactly `n_samples` values — one per
draw, in draw order — to every parameter's distribution, never clearing
what is already there; a second `fit` appends `n_samples` more. -/
theorem engineFit_appends_draws {P V : Type}
    (fitModel : Model P V → List ℝ → List ℝ → Model P V)
    (gen gen₂ : Model P V → ℕ → List ℝ) (e : Engine P V)
    (t y t₂ y₂ : List ℝ) (k : P) :
    (engineFit fitModel gen e t y).paramDists k
      = e.paramDists k ++ (List.range e.nSamples).map
          (fun i => (fitSample fitModel gen e.saveModels
              (fitWrapper fitModel e.model t y) t i).2 k) ∧
    ((engineFit fitModel gen e t y).paramDists k).length
      = (e.paramDists k).length + e.nSamples ∧
    ((engineFit fitModel gen₂ (engineFit fitModel gen e t y) t₂ y₂).paramDists k).length
      = (e.paramDists k).length + e.nSamples + e.nSamples := by
  have happend : ∀ (g : Model P V → ℕ → List ℝ) (e' : Engine P V) (t' y' : List ℝ),
      (engineFit fitModel g e' t' y').paramDists k
        = e'.paramDists k ++ (List.range e'.nSamples).map
            (fun i => (fitSample fitModel g e'.saveModels
                (fitWrapper fitModel e'.model t' y') t' i).2 k) := by
    intro g e' t' y'
    simp [engineFit, foldl_recordDraw_paramDists, List.map_map]
  have hlen : ∀ (g : Model P V → ℕ → List ℝ) (e' : Engine P V) (t' y' : List ℝ),
      ((engineFit fitModel g e' t' y').paramDists k).length
        = (e'.paramDists k).length + e'.nSamples := by
    intro g e' t' y'
    rw [happend, List.length_append, List.length_map, List.length_range]
  have hns : (engineFit fitModel gen e t y).nSamples = e.nSamples := by
    simp [engineFit, foldl_recordDraw_nSamples]
  refine ⟨happend gen e t y, hlen gen e t y, ?_⟩
  rw [hlen gen₂ _ t₂ y₂, hlen gen e t y, hns]

/-! ## Autoregressive decay in `BlockARWild._generate_bootstrap_err`

In the source, when `ar_coef` is `None` the decay is computed once, from
`t.size` — the length of the FULL series — before `np.array_split`; every
block then shares that single value. -/

/-- The default decay formula evaluated at size `n`:
`th = 0.01 ** (1 / (1.75 * n ** (1 / 3)))`, `l = 1 / 365.25`,
`gamma = th ** (1 / l)`. -/
noncomputable def defaultGamma (n : ℕ) : ℝ :=
  let th : ℝ := (0.01 : ℝ) ^ ((1 : ℝ) / (1.75 * (n : ℝ) ^ ((1 : ℝ) / 3)))
  let l : ℝ := 1 / 365.25
  th ^ ((1 : ℝ) / l)

/-- Decay used by `_generate_bootstrap_err`: the caller's `ar_coef` when
present, otherwise the default formula at size `n`. -/
noncomputable def blockGamma (arCoef : Option ℝ) (n : ℕ) : ℝ :=
  match arCoef with
  | some c => c
  | none => defaultGamma n

/-- Per-block error synthesis `(L @ iid_block).ravel() * residuals_block`;
the Cholesky factor and matrix-vector product (`_cholesky_decomposition`
plus `@`) are abstracted as `chol gamma t_block iid_block`. -/
noncomputable def genErrorsBlock (chol : ℝ → List ℝ → List ℝ → List ℝ)
    (gamma : ℝ) (tb rb iidb : List ℝ) : List ℝ :=
  List.zipWith (· * ·) (chol gamma tb iidb) rb

/-- Template for block-AR-wild error generation in which each block's decay
is chosen by `gammaOf` from that block of the time grid. -/
noncomputable def generateBootstrapErrWith (chol : ℝ → List ℝ → List ℝ → List ℝ)
    (gammaOf : List ℝ → ℝ) (blockSize : ℕ) (t residuals iid : List ℝ) : List ℝ :=
  let k := nBlocks t.length blockSize
  (((arraySplit t k).zip ((arraySplit residuals k).zip (arraySplit iid k))).map
    (fun trb => genErrorsBlock chol (gammaOf trb.1) trb.1 trb.2.1 trb.2.2)).flatten

/-- Embedding of `BlockARWild._generate_bootstrap_err`: `gamma` is computed
once from `t.size` (full series length), then the series is split into
`max(t.size // block_size, 1)` blocks and the per-block errors are
generated — all with that one `gamma` — and concatenated. -/
noncomputable def generateBootstrapErr (chol : ℝ → List ℝ → List ℝ → List ℝ)
    (arCoef : Option ℝ) (blockSize : ℕ) (t residuals iid : List ℝ) : List ℝ :=
  let gamma := blockGamma arCoef t.length
  let k := nBlocks t.length blockSize
  (((arraySplit t k).zip ((arraySplit residuals k).zip (arraySplit iid k))).map
    (fun trb => genErrorsBlock chol gamma trb.1 trb.2.1 trb.2.2)).flatten

/-- The claim's reading of the default decay: computed independently per
block, with `n` equal to that block's own size. -/
noncomputable def generateBootstrapErrPerBlockDefault
    (chol : ℝ → List ℝ → List ℝ → List ℝ) (blockSize : ℕ)
    (t residuals iid : List ℝ) : List ℝ :=
  generateBootstrapErrWith chol (fun tb => defaultGamma tb.length)
    blockSize t residuals iid

theorem defaultGamma_eq (k : ℕ) :
    defaultGamma k
      = (0.01 : ℝ) ^ ((1 / (1.75 * (k : ℝ) ^ ((1 : ℝ) / 3))) * 365.25) := by
  simp only [defaultGamma]
  rw [Real.rpow_mul (by norm_num : (0 : ℝ) ≤ 0.01)]
  norm_num

theorem defaultGamma_strictMono {m n : ℕ} (hm : 1 ≤ m) (hmn : m < n) :
    defaultGamma m < defaultGamma n := by
  have hmr : (0 : ℝ) < (m : ℝ) := by exact_mod_cast hm
  have hcm : (0 : ℝ) < (m : ℝ) ^ ((1 : ℝ) / 3) := Real.rpow_pos_of_pos hmr _
  have hne : (m : ℝ) ^ ((1 : ℝ) / 3) < (n : ℝ) ^ ((1 : ℝ) / 3) :=
    Real.rpow_lt_rpow (le_of_lt hmr) (by exact_mod_cast hmn) (by norm_num)
  have hdm : (0 : ℝ) < 1.75 * (m : ℝ) ^ ((1 : ℝ) / 3) := by nlinarith
  have hexp : 1 / (1.75 * (n : ℝ) ^ ((1 : ℝ) / 3)) * 365.25
      < 1 / (1.75 * (m : ℝ) ^ ((1 : ℝ) / 3)) * 365.25 := by
    have hinv : 1 / (1.75 * (n : ℝ) ^ ((1 : ℝ) / 3))
        < 1 / (1.75 * (m : ℝ) ^ ((1 : ℝ) / 3)) :=
      one_div_lt_one_div_of_lt hdm (by nlinarith)
    nlinarith
  rw [defaultGamma_eq, defaultGamma_eq]
  exact Real.rpow_lt_rpow_of_exponent_gt (by norm_num) (by norm_num) hexp

/-- Probe collaborator exposing the decay value each block is generated
with: it returns `gamma` at every position of the block. -/
def cholProbe : ℝ → List ℝ → List ℝ → List ℝ :=
  fun gamma tb _ => tb.map (fun _ => gamma)

/-- C1 counterexample: `n = 5`, `block_size = 2` gives blocks of sizes 3
and 2; the code generates every block with the single full-series decay
`defaultGamma 5`, not with `defaultGamma 3` and `defaultGamma 2` as the
claim states, and the outputs differ. -/
theorem blockARWild_gamma_counterexample :
    generateBootstrapErr cholProbe none 2 [0, 1, 2, 3, 4] [1, 1, 1, 1, 1]
        [0, 0, 0, 0, 0]
      ≠ generateBootstrapErrPerBlockDefault cholProbe 2 [0, 1, 2, 3, 4]
          [1, 1, 1, 1, 1] [0, 0, 0, 0, 0] := by
  have h25 : defaultGamma 2 < defaultGamma 5 :=
    defaultGamma_strictMono (by norm_num) (by norm_num)
  have hsrc : generateBootstrapErr cholProbe none 2 [0, 1, 2, 3, 4]
      [1, 1, 1, 1, 1] [0, 0, 0, 0, 0]
      = [defaultGamma 5 * 1, defaultGamma 5 * 1, defaultGamma 5 * 1,
         defaultGamma 5 * 1, defaultGamma 5 * 1] := rfl
  have hper : generateBootstrapErrPerBlockDefault cholProbe 2 [0, 1, 2, 3, 4]
      [1, 1, 1, 1, 1] [0, 0, 0, 0, 0]
      = [defaultGamma 3 * 1, defaultGamma 3 * 1, defaultGamma 3 * 1,
         defaultGamma 2 * 1, defaultGamma 2 * 1] := rfl
  intro h
  rw [hsrc, hper] at h
  have h3 := congrArg (fun l => l.getD 3 0) h
  simp only [List.getD_cons_succ, List.getD_cons_zero, mul_one] at h3
  exact absurd h3 (ne_of_gt h25)

/-- C1 amended: when `ar_coef` is absent, every block's errors are
generated with one shared decay — the default-γ formula evaluated once at
`n = t.size`, the FULL series length — regardless of the individual block
sizes. -/
theorem blockARWild_gamma_full_series (chol : ℝ → List ℝ → List ℝ → List ℝ)
    (blockSize : ℕ) (t residuals iid : List ℝ) :
    generateBootstrapErr chol none blockSize t residuals iid
      = generateBootstrapErrWith chol (fun _ => defaultGamma t.length)
          blockSize t residuals iid := rfl

/-! ## Change-point model fitting (`LinearBrokenTrendFourier`)

`np.linalg.lstsq` and `scipy.optimize.dual_annealing` are external
collaborators, abstracted as the parameters `lstsq` (returning the
solution vector and numpy's residual-sum array, possibly empty) and
`optimizer` (returning the located break `res.x[0]`). -/

/-- `LinearNoTrendFourier._fourier_terms`: cos/sin pair at a degree. -/
noncomputable def fourierTerms (t : List ℝ) (degree : ℕ) : List (List ℝ) :=
  [t.map (fun x => Real.cos (2 * degree * Real.pi * x)),
   t.map (fun x => Real.sin (2 * degree * Real.pi * x))]

/-- `LinearNoTrendFourier._regressor_terms`: Fourier pairs for degrees
`1..f_order`, then the intercept column of ones. -/
noncomputable def regressorTermsNoTrend (fOrder : ℕ) (t : List ℝ) :
    List (List ℝ) :=
  ((List.range fOrder).map (fun d => fourierTerms t (d + 1))).flatten
    ++ [List.replicate t.length 1]

/-- `LinearTrendFourier._regressor_terms`: adds the linear trend column. -/
noncomputable def regressorTermsTrend (fOrder : ℕ) (t : List ℝ) :
    List (List ℝ) :=
  regressorTermsNoTrend fOrder t ++ [t]

/-- `LinearBrokenTrendFourier._regressor_terms`: adds the broken-trend
column `np.where(t > t_break, t - t_break, 0)`. -/
noncomputable def regressorTermsBroken (fOrder : ℕ) (t : List ℝ)
    (tBreak : ℝ) : List (List ℝ) :=
  regressorTermsTrend fOrder t
    ++ [t.map (fun x => if tBreak < x then x - tBreak else 0)]

/-- Row `i` of `mat @ p`, where `mat` stacks the columns in `terms`. -/
noncomputable def predictRow (terms : List (List ℝ)) (p : List ℝ) (i : ℕ) : ℝ :=
  ((terms.zip p).map (fun cw => cw.2 * cw.1.getD i 0)).sum

/-- Sum of squared residuals `‖y - mat @ p‖²`, the quantity reported in
`np.linalg.lstsq`'s residues entry when that entry is non-empty. -/
noncomputable def sumSqResid (terms : List (List ℝ)) (p : List ℝ)
    (y : List ℝ) : ℝ :=
  ((List.range y.length).map (fun i => (y.getD i 0 - predictRow terms p i) ^ 2)).sum

/-- Embedding of `solve_for_location` (the optimizer objective inside
`LinearBrokenTrendFourier._fit`): solve least squares at the candidate
break; an empty residual array yields `np.inf` (modelled `⊤ : EReal`),
otherwise the objective is `ssr[0]`. -/
noncomputable def solveForLocation
    (lstsq : List (List ℝ) → List ℝ → List ℝ × List ℝ) (fOrder : ℕ)
    (t y : List ℝ) (tBreak : ℝ) : EReal :=
  match (lstsq (regressorTermsBroken fOrder t tBreak) y).2 with
  | [] => (⊤ : EReal)
  | s :: _ => (s : EReal)

/-- C8: a candidate break whose least-squares residual array comes back
empty is penalized with `+∞` rather than raising, so the search continues;
any other candidate's objective is the head of the residual array — the
sum of squared residuals whenever `lstsq` meets the numpy contract there. -/
theorem solveForLocation_objective
    (lstsq : List (List ℝ) → List ℝ → List ℝ × List ℝ) (fOrder : ℕ)
    (t y : List ℝ) (tBreak : ℝ) :
    ((lstsq (regressorTermsBroken fOrder t tBreak) y).2 = [] →
      solveForLocation lstsq fOrder t y tBreak = (⊤ : EReal)) ∧
    (∀ p s rest, lstsq (regressorTermsBroken fOrder t tBreak) y = (p, s :: rest) →
      s = sumSqResid (regressorTermsBroken fOrder t tBreak) p y →
      solveForLocation lstsq fOrder t y tBreak
        = ((sumSqResid (regressorTermsBroken fOrder t tBreak) p y : ℝ) : EReal)) := by
  constructor
  · intro h
    simp only [solveForLocation, h]
  · intro p s rest h hs
    simp only [solveForLocation, h, ← hs]

/-- Stub for `lstsq` on a rank-deficient system: empty residual array. -/
def lstsqEmpty : List (List ℝ) → List ℝ → List ℝ × List ℝ := fun _ _ => ([], [])

/-- Stub for `lstsq` returning the zero solution with zero residual sum. -/
def lstsqZero : List (List ℝ) → List ℝ → List ℝ × List ℝ :=
  fun _ _ => ([0, 0, 0], [0])

/-- Stub for the global optimizer: always locates the break at `0.5`. -/
def optStub : (ℝ → EReal) → ℝ × ℝ → ℝ := fun _ _ => 0.5

/-- C8 witness: both branches on concrete systems. -/
theorem solveForLocation_objective_witness :
    ((lstsqEmpty (regressorTermsBroken 0 [0, 2] 1) [0, 0]).2 = [] ∧
     solveForLocation lstsqEmpty 0 [0, 2] [0, 0] 1 = (⊤ : EReal)) ∧
    (lstsqZero (regressorTermsBroken 0 [0, 2] 1) [0, 0] = ([0, 0, 0], [0]) ∧
     (0 : ℝ) = sumSqResid (regressorTermsBroken 0 [0, 2] 1) [0, 0, 0] [0, 0] ∧
     solveForLocation lstsqZero 0 [0, 2] [0, 0] 1
       = ((sumSqResid (regressorTermsBroken 0 [0, 2] 1) [0, 0, 0] [0, 0] : ℝ)
           : EReal)) := by
  have hz : (0 : ℝ) = sumSqResid (regressorTermsBroken 0 [0, 2] 1) [0, 0, 0] [0, 0] := by
    norm_num [sumSqResid, predictRow, regressorTermsBroken, regressorTermsTrend,
      regressorTermsNoTrend, List.range_succ]
  refine ⟨⟨rfl, (solveForLocation_objective lstsqEmpty 0 [0, 2] [0, 0] 1).1 rfl⟩,
          rfl, hz,
          (solveForLocation_objective lstsqZero 0 [0, 2] [0, 0] 1).2
            [0, 0, 0] 0 [] rfl hz⟩

/-- Embedding of `LinearBrokenTrendFourier._fit`: when `t_break` is to be
fitted, run the global optimizer over the objective on the bounds
(default `(t[1], t[-1])`), then re-solve least squares once at the chosen
break to populate the final parameter values and return.  The result type
is `Except` so that any raising control path would be visible; the final
re-solve does not examine its residual array. -/
noncomputable def fitBroken
    (lstsq : List (List ℝ) → List ℝ → List ℝ × List ℝ)
    (optimizer : (ℝ → EReal) → ℝ × ℝ → ℝ) (fOrder : ℕ) (fitTBreak : Bool)
    (tBreak0 : ℝ) (optBounds : Option (ℝ × ℝ)) (t y : List ℝ) :
    Except String (ℝ × List ℝ × List ℝ) :=
  let tb :=
    if fitTBreak then
      let bounds :=
        match optBounds with
        | some b => b
        | none => (t.getD 1 0, t.getD (t.length - 1) 0)
      optimizer (solveForLocation lstsq fOrder t y) bounds
    else tBreak0
  let pr := lstsq (regressorTermsBroken fOrder t tb) y
  .ok (tb, pr.1, pr.2)

/-- C7 counterexample: a final re-solve whose residual array is empty
(underdetermined system) does not make `fit` raise — the fit completes
normally and returns a value, refuting the claim that this case is
surfaced as a fit failure. -/
theorem fitBroken_empty_final_resolve_counterexample :
    (lstsqEmpty (regressorTermsBroken 0 [0, 1] (0.5 : ℝ)) [1, 2]).2 = [] ∧
    fitBroken lstsqEmpty optStub 0 true 0 none [0, 1] [1, 2]
      = .ok (0.5, [], []) :=
  ⟨rfl, rfl⟩

/-- C7 amended: the final least-squares re-solve never surfaces a failure:
for every input — in particular when its residual array comes back empty —
`fit` completes normally, returning the chosen break and the final
solution together with whatever residual array the solve produced. -/
theorem fitBroken_completes
    (lstsq : List (List ℝ) → List ℝ → List ℝ × List ℝ)
    (optimizer : (ℝ → EReal) → ℝ × ℝ → ℝ) (fOrder : ℕ) (fitTBreak : Bool)
    (tBreak0 : ℝ) (optBounds : Option (ℝ × ℝ)) (t y : List ℝ) :
    ∃ tb : ℝ,
      fitBroken lstsq optimizer fOrder fitTBreak tBreak0 optBounds t y
        = .ok (tb, (lstsq (regressorTermsBroken fOrder t tb) y).1,
                   (lstsq (regressorTermsBroken fOrder t tb) y).2) := by
  cases fitTBreak <;> exact ⟨_, rfl⟩

/-! ## Correlation matrix of `_cholesky_decomposition`

`mat = np.triu(gamma ** (t[None, :] - t[:, None]))`;
`np.fill_diagonal(mat, 0.5)`; the matrix handed to `np.linalg.cholesky`
is `mat + mat.transpose()`. -/

/-- `np.triu(gamma ** (t[None, :] - t[:, None]))`. -/
noncomputable def corrUpper (gamma : ℝ) {n : ℕ} (t : Fin n → ℝ) :
    Matrix (Fin n) (Fin n) ℝ :=
  Matrix.of fun i j => if i ≤ j then gamma ^ (t j - t i) else 0

/-- The upper-triangular matrix after `np.fill_diagonal(mat, 0.5)`. -/
noncomputable def corrHalf (gamma : ℝ) {n : ℕ} (t : Fin n → ℝ) :
    Matrix (Fin n) (Fin n) ℝ :=
  Matrix.of fun i j => if i = j then 0.5 else corrUpper gamma t i j

/-- The symmetrized matrix `mat + mat.transpose()` that
`_cholesky_decomposition` factorizes. -/
noncomputable def corrMatrix (gamma : ℝ) {n : ℕ} (t : Fin n → ℝ) :
    Matrix (Fin n) (Fin n) ℝ :=
  corrHalf gamma t + (corrHalf gamma t).transpose

theorem corrHalf_apply (gamma : ℝ) {n : ℕ} (t : Fin n → ℝ) (i j : Fin n) :
    corrHalf gamma t i j
      = if i = j then 0.5 else if i ≤ j then gamma ^ (t j - t i) else 0 := rfl

theorem corrMatrix_apply (gamma : ℝ) {n : ℕ} (t : Fin n → ℝ) (i j : Fin n) :
    corrMatrix gamma t i j = corrHalf gamma t i j + corrHalf gamma t j i := rfl

theorem corrMatrix_apply_diag (gamma : ℝ) {n : ℕ} (t : Fin n → ℝ) (i : Fin n) :
    corrMatrix gamma t i i = 1 := by
  rw [corrMatrix_apply, corrHalf_apply, if_pos rfl]
  norm_num

theorem corrMatrix_apply_lt (gamma : ℝ) {n : ℕ} (t : Fin n → ℝ) {i j : Fin n}
    (hij : i < j) : corrMatrix gamma t i j = gamma ^ (t j - t i) := by
  have h1 : i ≤ j := le_of_lt hij
  have h2 : ¬ j ≤ i := not_le_of_lt hij
  have hne : i ≠ j := ne_of_lt hij
  have hne2 : j ≠ i := (ne_of_lt hij).symm
  rw [corrMatrix_apply, corrHalf_apply, corrHalf_apply, if_neg hne, if_pos h1,
    if_neg hne2, if_neg h2, add_zero]

theorem corrMatrix_apply_symm (gamma : ℝ) {n : ℕ} (t : Fin n → ℝ) (i j : Fin n) :
    corrMatrix gamma t i j = corrMatrix gamma t j i := by
  rw [corrMatrix_apply, corrMatrix_apply, add_comm]

theorem corrMatrix_castSucc (gamma : ℝ) {k : ℕ} (t : Fin (k + 1) → ℝ)
    (i j : Fin k) :
    corrMatrix gamma t i.castSucc j.castSucc
      = corrMatrix gamma (t ∘ Fin.castSucc) i j := by
  rw [corrMatrix_apply, corrMatrix_apply, corrHalf_apply, corrHalf_apply,
    corrHalf_apply, corrHalf_apply]
  simp [Fin.castSucc_le_castSucc_iff, Fin.castSucc_inj, Function.comp]

/-- The quadratic form `xᵀ S x`. -/
noncomputable def quadForm {n : ℕ} (S : Matrix (Fin n) (Fin n) ℝ)
    (x : Fin n → ℝ) : ℝ :=
  ∑ i, ∑ j, x i * S i j * x j

theorem quadForm_add {n : ℕ} (S : Matrix (Fin n) (Fin n) ℝ) (u v : Fin n → ℝ) :
    quadForm S (fun i => u i + v i)
      = quadForm S u + quadForm S v
        + (∑ i, ∑ j, u i * S i j * v j) + (∑ i, ∑ j, v i * S i j * u j) := by
  simp only [quadForm]
  rw [← Finset.sum_add_distrib, ← Finset.sum_add_distrib, ← Finset.sum_add_distrib]
  refine Finset.sum_congr rfl fun i _ => ?_
  rw [← Finset.sum_add_distrib, ← Finset.sum_add_distrib, ← Finset.sum_add_distrib]
  refine Finset.sum_congr rfl fun j _ => ?_
  ring

theorem cross_delta_right {n : ℕ} (S : Matrix (Fin n) (Fin n) ℝ)
    (u : Fin n → ℝ) (e : Fin n) (c : ℝ) :
    (∑ i, ∑ j, u i * S i j * (if j = e then c else 0))
      = c * ∑ i, u i * S i e := by
  rw [Finset.mul_sum]
  refine Finset.sum_congr rfl fun i _ => ?_
  simp only [mul_ite, mul_zero]
  rw [Finset.sum_ite_eq' Finset.univ e (fun j => u i * S i j * c)]
  simp only [Finset.mem_univ, if_pos]
  ring

theorem cross_delta_left {n : ℕ} (S : Matrix (Fin n) (Fin n) ℝ)
    (u : Fin n → ℝ) (e : Fin n) (c : ℝ) :
    (∑ i, ∑ j, (if i = e then c else 0) * S i j * u j)
      = c * ∑ j, S e j * u j := by
  have hrow : ∀ i : Fin n,
      (∑ j, (if i = e then c else 0) * S i j * u j)
        = if i = e then (∑ j, c * S e j * u j) else 0 := by
    intro i
    by_cases hie : i = e
    · subst hie
      simp
    · simp [hie]
  rw [Finset.sum_congr rfl fun i _ => hrow i,
    Finset.sum_ite_eq' Finset.univ e (fun _ => ∑ j, c * S e j * u j)]
  simp only [Finset.mem_univ, if_pos]
  rw [Finset.mul_sum]
  refine Finset.sum_congr rfl fun j _ => ?_
  ring

theorem quadForm_delta {n : ℕ} (S : Matrix (Fin n) (Fin n) ℝ) (e : Fin n)
    (c : ℝ) :
    quadForm S (fun i => if i = e then c else 0) = c * c * S e e := by
  simp only [quadForm]
  have hrow : ∀ i : Fin n,
      (∑ j, (if i = e then c else 0) * S i j * (if j = e then c else 0))
        = if i = e then c * S e e * c else 0 := by
    intro i
    by_cases hie : i = e
    · subst hie
      simp only [eq_self_iff_true, if_true, mul_ite, mul_zero]
      rw [Finset.sum_ite_eq' Finset.univ i (fun j => c * S i j * c)]
      simp
    · simp [hie]
  rw [Finset.sum_congr rfl fun i _ => hrow i,
    Finset.sum_ite_eq' Finset.univ e (fun _ => c * S e e * c)]
  simp only [Finset.mem_univ, if_pos]
  ring

/-- Quadratic-form decomposition for a symmetric matrix whose last column
is `rho` times the `e`-column of its leading principal submatrix `S'` and
whose diagonal corner is `1`: completing the square against
`y = x' + rho·xl·δ_e` leaves `(1 - rho²)·xl²`. -/
theorem quadForm_bordered {k : ℕ} (S : Matrix (Fin (k + 1)) (Fin (k + 1)) ℝ)
    (S' : Matrix (Fin k) (Fin k) ℝ) (e : Fin k) (rho : ℝ)
    (hrestrict : ∀ i j : Fin k, S i.castSucc j.castSucc = S' i j)
    (hsym : ∀ i j, S i j = S j i)
    (hcol : ∀ i : Fin k, S i.castSucc (Fin.last k) = rho * S' i e)
    (hdiagS : S (Fin.last k) (Fin.last k) = 1)
    (hdiagS2 : S' e e = 1)
    (x : Fin (k + 1) → ℝ) :
    quadForm S x
      = quadForm S'
          (fun i => x i.castSucc + (if i = e then rho * x (Fin.last k) else 0))
        + (1 - rho * rho) * (x (Fin.last k) * x (Fin.last k)) := by
  have hsym2 : ∀ i j : Fin k, S' i j = S' j i := fun i j => by
    rw [← hrestrict, hsym, hrestrict]
  have hsplit : quadForm S x
      = quadForm S' (fun i => x i.castSucc)
        + 2 * (rho * x (Fin.last k))
            * (∑ i, x i.castSucc * S' i e)
        + x (Fin.last k) * x (Fin.last k) := by
    simp only [quadForm]
    rw [Fin.sum_univ_castSucc]
    have hinner1 : ∀ i : Fin k,
        (∑ j, x i.castSucc * S i.castSucc j * x j)
          = (∑ j : Fin k, x i.castSucc * S' i j * x j.castSucc)
            + x i.castSucc * (rho * S' i e) * x (Fin.last k) := by
      intro i
      rw [Fin.sum_univ_castSucc]
      congr 1
      · exact Finset.sum_congr rfl fun j _ => by rw [hrestrict]
      · rw [hcol i]
    have hinner2 : (∑ j, x (Fin.last k) * S (Fin.last k) j * x j)
        = (∑ j : Fin k, x (Fin.last k) * (rho * S' j e) * x j.castSucc)
          + x (Fin.last k) * 1 * x (Fin.last k) := by
      rw [Fin.sum_univ_castSucc]
      congr 1
      · refine Finset.sum_congr rfl fun j _ => ?_
        rw [hsym, hcol j]
      · rw [hdiagS]
    rw [Finset.sum_congr rfl fun i _ => hinner1 i, hinner2,
      Finset.sum_add_distrib]
    have hc1 : (∑ i : Fin k, x i.castSucc * (rho * S' i e) * x (Fin.last k))
        = rho * x (Fin.last k) * (∑ i, x i.castSucc * S' i e) := by
      rw [Finset.mul_sum]
      exact Finset.sum_congr rfl fun i _ => by ring
    have hc2 : (∑ j : Fin k, x (Fin.last k) * (rho * S' j e) * x j.castSucc)
        = rho * x (Fin.last k) * (∑ i, x i.castSucc * S' i e) := by
      rw [Finset.mul_sum]
      exact Finset.sum_congr rfl fun i _ => by ring
    rw [hc1, hc2]
    ring
  have hQy : quadForm S'
      (fun i => x i.castSucc + (if i = e then rho * x (Fin.last k) else 0))
        = quadForm S' (fun i => x i.castSucc)
          + 2 * (rho * x (Fin.last k)) * (∑ i, x i.castSucc * S' i e)
          + (rho * x (Fin.last k)) * (rho * x (Fin.last k)) := by
    rw [quadForm_add S' (fun i => x i.castSucc)
      (fun i => if i = e then rho * x (Fin.last k) else 0)]
    rw [cross_delta_right S' (fun i => x i.castSucc) e (rho * x (Fin.last k)),
      cross_delta_left S' (fun i => x i.castSucc) e (rho * x (Fin.last k)),
      quadForm_delta S' e (rho * x (Fin.last k)), hdiagS2]
    have hc3 : (∑ j, S' e j * x j.castSucc)
        = ∑ i, x i.castSucc * S' i e := by
      refine Finset.sum_congr rfl fun j _ => ?_
      rw [hsym2]
      ring
    rw [hc3]
    ring
  rw [hsplit, hQy]
  ring

/-- Positive quadratic form of the correlation matrix, by induction on the
series length (bordered decomposition at the last time point). -/
theorem corrMatrix_quadForm_pos (gamma : ℝ) (h0 : 0 < gamma) (h1 : gamma < 1) :
    ∀ (n : ℕ) (t : Fin n → ℝ), StrictMono t → ∀ x : Fin n → ℝ, x ≠ 0 →
      0 < quadForm (corrMatrix gamma t) x := by
  intro n
  induction n with
  | zero =>
    intro t ht x hx
    exact absurd (funext fun i => i.elim0) hx
  | succ m ih =>
    intro t ht x hx
    rcases m with _ | k
    · -- a single time point: the matrix is [[1]]
      have hx0 : x 0 ≠ 0 := by
        intro h
        apply hx
        funext i
        haveI : Subsingleton (Fin (0 + 1)) := Fin.subsingleton_one
        rw [Subsingleton.elim i 0]
        simpa using h
      have hq : quadForm (corrMatrix gamma t) x = x 0 * 1 * x 0 := by
        simp [quadForm, Fin.sum_univ_one, corrMatrix_apply_diag]
      rw [hq]
      simpa using mul_self_pos.mpr hx0
    · -- peel the last time point
      have ht' : StrictMono (t ∘ Fin.castSucc) := by
        intro a b hab
        exact ht (Fin.castSucc_lt_castSucc_iff.mpr hab)
      set rho := gamma ^ (t (Fin.last (k + 1)) - t ((Fin.last k).castSucc))
        with hrho
      have hexp : 0 < t (Fin.last (k + 1)) - t ((Fin.last k).castSucc) :=
        sub_pos.mpr (ht (Fin.castSucc_lt_last (Fin.last k)))
      have hrho_pos : 0 < rho := Real.rpow_pos_of_pos h0 _
      have hrho_lt : rho < 1 := Real.rpow_lt_one (le_of_lt h0) h1 hexp
      have hcol : ∀ i : Fin (k + 1),
          corrMatrix gamma t i.castSucc (Fin.last (k + 1))
            = rho * corrMatrix gamma (t ∘ Fin.castSucc) i (Fin.last k) := by
        intro i
        rw [corrMatrix_apply_lt gamma t (Fin.castSucc_lt_last i)]
        rcases eq_or_lt_of_le (Fin.le_last i) with hie | hie
        · rw [hie, corrMatrix_apply_diag, mul_one]
        · rw [corrMatrix_apply_lt gamma (t ∘ Fin.castSucc) hie, hrho,
            ← Real.rpow_add h0]
          congr 1
          simp only [Function.comp_apply]
          ring
      have hbord := quadForm_bordered (corrMatrix gamma t)
        (corrMatrix gamma (t ∘ Fin.castSucc)) (Fin.last k) rho
        (fun i j => corrMatrix_castSucc gamma t i j)
        (fun i j => corrMatrix_apply_symm gamma t i j)
        hcol
        (corrMatrix_apply_diag gamma t (Fin.last (k + 1)))
        (corrMatrix_apply_diag gamma (t ∘ Fin.castSucc) (Fin.last k))
        x
      rw [hbord]
      have h1r : 0 < 1 - rho * rho := by nlinarith
      have hQy_nonneg : 0 ≤ quadForm (corrMatrix gamma (t ∘ Fin.castSucc))
          (fun i => x i.castSucc
            + (if i = Fin.last k then rho * x (Fin.last (k + 1)) else 0)) := by
        by_cases hy0 : (fun i : Fin (k + 1) => x i.castSucc
            + (if i = Fin.last k then rho * x (Fin.last (k + 1)) else 0)) = 0
        · rw [hy0]
          simp [quadForm]
        · exact le_of_lt (ih (t ∘ Fin.castSucc) ht' _ hy0)
      by_cases hxl0 : x (Fin.last (k + 1)) = 0
      · have hyeq : (fun i : Fin (k + 1) => x i.castSucc
            + (if i = Fin.last k then rho * x (Fin.last (k + 1)) else 0))
              = fun i => x i.castSucc := by
          funext i
          rw [hxl0]
          simp
        have hne : (fun i : Fin (k + 1) => x i.castSucc) ≠ 0 := by
          intro hzero
          apply hx
          funext i
          refine Fin.lastCases ?_ ?_ i
          · exact hxl0
          · intro j
            exact congrFun hzero j
        have hpos := ih (t ∘ Fin.castSucc) ht' _ hne
        rw [hyeq, hxl0]
        simpa using hpos
      · have hterm : 0 < (1 - rho * rho)
            * (x (Fin.last (k + 1)) * x (Fin.last (k + 1))) :=
          mul_pos h1r (mul_self_pos.mpr hxl0)
        linarith

theorem dotProduct_eq_quadForm {n : ℕ} (S : Matrix (Fin n) (Fin n) ℝ)
    (x : Fin n → ℝ) :
    Matrix.dotProduct (star x) (S.mulVec x) = quadForm S x := by
  simp only [Matrix.dotProduct, Matrix.mulVec, quadForm, Pi.star_apply,
    star_trivial]
  refine Finset.sum_congr rfl fun i _ => ?_
  rw [Finset.mul_sum]
  exact Finset.sum_congr rfl fun j _ => by ring

/-- C4: for `gamma ∈ (0, 1)` and strictly increasing `t`, the matrix built
by `_cholesky_decomposition` is symmetric and positive-definite, so the
Cholesky factorization cannot hit its failure branch under this
precondition. -/
theorem corrMatrix_posDef {n : ℕ} (gamma : ℝ) (t : Fin n → ℝ)
    (h0 : 0 < gamma) (h1 : gamma < 1) (ht : StrictMono t) :
    (corrMatrix gamma t).IsSymm ∧ (corrMatrix gamma t).PosDef := by
  constructor
  · show (corrMatrix gamma t).transpose = corrMatrix gamma t
    ext i j
    rw [Matrix.transpose_apply]
    exact corrMatrix_apply_symm gamma t j i
  · constructor
    · show (corrMatrix gamma t).conjTranspose = corrMatrix gamma t
      ext i j
      rw [Matrix.conjTranspose_apply, star_trivial]
      exact corrMatrix_apply_symm gamma t j i
    · intro x hx
      rw [dotProduct_eq_quadForm]
      exact corrMatrix_quadForm_pos gamma h0 h1 n t ht x hx

/-- C4 witness: `gamma = 1/2` and the strictly increasing grid
`t = (0, 1)` on two points. -/
theorem corrMatrix_posDef_witness :
    (0 : ℝ) < 1 / 2 ∧ (1 / 2 : ℝ) < 1 ∧
    StrictMono (fun i : Fin 2 => (i.val : ℝ)) ∧
    ((corrMatrix (1 / 2) (fun i : Fin 2 => (i.val : ℝ))).IsSymm ∧
     (corrMatrix (1 / 2) (fun i : Fin 2 => (i.val : ℝ))).PosDef) :=
  ⟨by norm_num, by norm_num, fun a b h => Nat.cast_lt.mpr h,
   corrMatrix_posDef (1 / 2) (fun i : Fin 2 => (i.val : ℝ))
     (by norm_num) (by norm_num) (fun a b h => Nat.cast_lt.mpr h)⟩

end Trendfit
